import Mathlib

/-!
Shallow embedding of the markdown transformation core of the `zine` static
site generator (`src/markdown.rs`), together with the author-id
deserialization logic (`src/entity/author.rs`) and the date deserialization
visitor (`src/helpers.rs`, module `serde_date`).

The underlying pulldown-cmark parser and the HTML serializer are external
library code; they are modelled as parameters (`parse : String → List Event`,
`push_html : List Event → String`).  Everything this repository itself does
with the event stream is embedded directly from the source.
-/

namespace Zine

/-- Embedding of `pulldown_cmark::Tag` (the structural kinds used by the
source; payloads irrelevant to `markdown.rs` are simplified). -/
inductive Tag where
  | Paragraph : Tag
  | Heading : Nat → Tag
  | BlockQuote : Tag
  | CodeBlock : Option String → Tag
  | List : Option Nat → Tag
  | Item : Tag
  | FootnoteDefinition : String → Tag
  | Table : Tag
  | TableHead : Tag
  | TableRow : Tag
  | TableCell : Tag
  | Emphasis : Tag
  | Strong : Tag
  | Strikethrough : Tag
  | Link : Nat → String → String → Tag
  | Image : Nat → String → String → Tag
deriving DecidableEq, Repr

/-- Embedding of `pulldown_cmark::Event`. -/
inductive Event where
  | Start : Tag → Event
  | End : Tag → Event
  | Text : String → Event
  | Code : String → Event
  | Html : String → Event
  | FootnoteReference : String → Event
  | SoftBreak : Event
  | HardBreak : Event
  | Rule : Event
  | TaskListMarker : Bool → Event
deriving DecidableEq, Repr

/-- The `Visiting` type from `src/markdown.rs`: the markdown visit result. -/
inductive Visiting where
  | event : Event → Visiting
  | notChanged : Visiting
  | ignore : Visiting
deriving DecidableEq, Repr

/-- Method `Visiting::resolve` from `src/markdown.rs`. -/
def Visiting.resolve (v : Visiting) (not_changed : Event) : Option Event :=
  match v with
  | Visiting.event e => some e
  | Visiting.notChanged => some not_changed
  | Visiting.ignore => none

/-- The `MarkdownVisitor` trait from `src/markdown.rs`.  Rust visitors take
`&mut self`, so each operation threads an explicit state of type `σ`. -/
structure MarkdownVisitor (σ : Type) where
  mk ::
  visit_start_tag : σ → Tag → Visiting × σ
  visit_end_tag : σ → Tag → Visiting × σ
  visit_text : σ → String → Visiting × σ
  visit_code : σ → String → Visiting × σ

/-- A visitor using only the trait's default method implementations
(every operation returns `NotChanged` and leaves the state alone). -/
def defaultVisitor : MarkdownVisitor Unit :=
  MarkdownVisitor.mk (fun s _ => (Visiting.notChanged, s))
    (fun s _ => (Visiting.notChanged, s))
    (fun s _ => (Visiting.notChanged, s))
    (fun s _ => (Visiting.notChanged, s))

/-- One step of the `filter_map` closure inside `markdown_to_html`
(`src/markdown.rs` lines 54-64): dispatch one event to the visitor when its
kind is interceptable, otherwise forward it unchanged. -/
def dispatchEvent {σ : Type} (v : MarkdownVisitor σ) (s : σ) : Event → Option Event × σ
  | Event.Start tag =>
      let r := v.visit_start_tag s tag
      (r.1.resolve (Event.Start tag), r.2)
  | Event.End tag =>
      let r := v.visit_end_tag s tag
      (r.1.resolve (Event.End tag), r.2)
  | Event.Code code =>
      let r := v.visit_code s code
      (r.1.resolve (Event.Code code), r.2)
  | Event.Text text =>
      let r := v.visit_text s text
      (r.1.resolve (Event.Text text), r.2)
  | e => (some e, s)

/-- The event pipeline of `markdown_to_html`: the stateful `filter_map` over
the parsed event sequence. -/
def processEvents {σ : Type} (v : MarkdownVisitor σ) : σ → List Event → List Event
  | _, [] => []
  | s, e :: rest =>
      match dispatchEvent v s e with
      | (some e2, s2) => e2 :: processEvents v s2 rest
      | (none, s2) => processEvents v s2 rest

/-- Version of `processEvents` instrumented with the index of the
originating parsed event, used to state order preservation. -/
def processTrace {σ : Type} (v : MarkdownVisitor σ) : σ → Nat → List Event → List (Nat × Event)
  | _, _, [] => []
  | s, i, e :: rest =>
      match dispatchEvent v s e with
      | (some e2, s2) => (i, e2) :: processTrace v s2 (i + 1) rest
      | (none, s2) => processTrace v s2 (i + 1) rest

/-- Function `markdown_to_html` from `src/markdown.rs`.  `parse` models
`Parser::new_ext(markdown, Options::all())` (external) and `push_html`
models `pulldown_cmark::html::push_html` (external). -/
def markdown_to_html {σ : Type} (parse : String → List Event)
    (push_html : List Event → String) (v : MarkdownVisitor σ) (s : σ)
    (markdown : String) : String :=
  push_html (processEvents v s (parse markdown))

/-- Baseline rendering with no interception: the parsed events fed directly
into the HTML serializer. -/
def baseline_html (parse : String → List Event) (push_html : List Event → String)
    (markdown : String) : String :=
  push_html (parse markdown)

/-- The event kinds dispatched to the visitor by `markdown_to_html`. -/
def interceptable : Event → Bool
  | Event.Start _ => true
  | Event.End _ => true
  | Event.Text _ => true
  | Event.Code _ => true
  | _ => false

/-! ## Plain-text stripper (`strip_markdown` and helpers) -/

/-- Function `fresh_line` from `src/markdown.rs`. -/
def fresh_line (buffer : String) : String :=
  buffer.push (Char.ofNat 10)

/-- Function `start_tag` from `src/markdown.rs`. -/
def start_tag (tag : Tag) (buffer : String) : String :=
  match tag with
  | Tag.CodeBlock _ => fresh_line buffer
  | Tag.List _ => fresh_line buffer
  | Tag.Link _ _ title => if title ≠ "" then buffer ++ title else buffer
  | _ => buffer

/-- Function `end_tag` from `src/markdown.rs`. -/
def end_tag (tag : Tag) (buffer : String) : String :=
  match tag with
  | Tag.Table => fresh_line buffer
  | Tag.TableHead => fresh_line buffer
  | Tag.TableRow => fresh_line buffer
  | Tag.Heading _ => fresh_line buffer
  | Tag.BlockQuote => fresh_line buffer
  | Tag.CodeBlock _ => fresh_line buffer
  | Tag.Item => fresh_line buffer
  | _ => buffer

/-- The per-event body of the `for` loop in `strip_markdown`. -/
def stripEvent (buffer : String) : Event → String
  | Event.Start tag => start_tag tag buffer
  | Event.End tag => end_tag tag buffer
  | Event.Text text => buffer ++ text
  | Event.Code code => buffer ++ code
  | Event.SoftBreak => fresh_line buffer
  | Event.HardBreak => fresh_line buffer
  | Event.Rule => fresh_line buffer
  | _ => buffer

/-- Function `strip_markdown` from `src/markdown.rs`.  `parse` models
`Parser::new_ext(markdown, options)` with only strikethrough enabled
(external). -/
def strip_markdown (parse : String → List Event) (markdown : String) : String :=
  (parse markdown).foldl stripEvent ""

/-! ## Description extractor (`extract_description`) -/

/-- Model of Rust `char::is_whitespace` (Unicode `White_Space`), used by
`str::trim`. -/
def rustIsWhitespace (c : Char) : Bool :=
  let n := c.toNat
  n == 9 || n == 10 || n == 11 || n == 12 || n == 13 || n == 32 ||
  n == 133 || n == 160 || n == 5760 ||
  (8192 ≤ n && n ≤ 8202) || n == 8232 || n == 8233 || n == 8239 ||
  n == 8287 || n == 12288

/-- Model of Rust `str::trim`. -/
def rustTrim (s : String) : String :=
  String.mk (((s.data.dropWhile rustIsWhitespace).reverse.dropWhile rustIsWhitespace).reverse)

/-- Helper for `rustLines`: scans the characters, accumulating the current
line in reverse. -/
def rustLinesAux (cur : List Char) : List Char → List String
  | [] => if cur.isEmpty then [] else [String.mk cur.reverse]
  | c :: rest =>
      if c = Char.ofNat 10 then
        let line := cur.reverse
        let line := if line.getLast? = some (Char.ofNat 13) then line.dropLast else line
        String.mk line :: rustLinesAux [] rest
      else
        rustLinesAux (c :: cur) rest

/-- Model of Rust `str::lines`: split at `\n` or `\r\n`, final terminator
optional, bare `\r` not a terminator. -/
def rustLines (s : String) : List String :=
  rustLinesAux [] s.data

/-- Model of Rust `line.starts_with(&['#', '!'])`. -/
def startsWithHashOrBang (s : String) : Bool :=
  match s.data with
  | [] => false
  | c :: _ => c = Char.ofNat 35 || c = Char.ofNat 33

/-- The expression `raw.chars().take(200).collect::<String>().replace` from
`extract_description` (`src/markdown.rs` line 91). -/
def sanitize (raw : String) : String :=
  String.mk ((raw.data.take 200).map
    (fun c => if c = Char.ofNat 34 then Char.ofNat 39 else c))

/-- The closure passed to `find_map` inside `extract_description`
(`src/markdown.rs` lines 78-94). -/
def descriptionOfLine (parse : String → List Event) (line : String) : Option String :=
  let line := rustTrim line
  if line = "" || startsWithHashOrBang line then
    none
  else
    let raw := strip_markdown parse line
    if raw = String.mk [Char.ofNat 10] || raw = "" then
      none
    else
      some (sanitize raw)

/-- Model of Rust `Iterator::find_map`. -/
def find_map {α β : Type} (f : α → Option β) : List α → Option β
  | [] => none
  | a :: rest =>
      match f a with
      | some b => some b
      | none => find_map f rest

/-- Function `extract_description` from `src/markdown.rs`. -/
def extract_description (parse : String → List Event) (markdown : String) : String :=
  (find_map (descriptionOfLine parse) (rustLines markdown)).getD ""

/-! ## AuthorId deserialization (`src/entity/author.rs`) -/

/-- Type `AuthorId` from `src/entity/author.rs`. -/
inductive AuthorId where
  | One : String → AuthorId
  | List : List String → AuthorId
deriving DecidableEq, Repr

namespace AuthorNameVisitor

/-- Method `AuthorNameVisitor::visit_str` from `src/entity/author.rs`. -/
def visit_str (v : String) : AuthorId :=
  AuthorId.One v

/-- The `while let Some(author) = seq.next_element()?` loop of
`AuthorNameVisitor::visit_seq`: push each author not already contained
(Rust `Vec::contains` is membership by string equality). -/
def seqLoop (authors : List String) : List String → List String
  | [] => authors
  | a :: rest =>
      if a ∈ authors then seqLoop authors rest
      else seqLoop (authors ++ [a]) rest

/-- Method `AuthorNameVisitor::visit_seq` from `src/entity/author.rs`; the element
stream is modelled as the list of successfully deserialized names. -/
def visit_seq (names : List String) : AuthorId :=
  AuthorId.List (seqLoop [] names)

end AuthorNameVisitor

/-- Specification-side characterization of duplicate removal: keep the first
occurrence of each name, drop later duplicates (exact string equality),
preserving the relative order of first occurrences. -/
def specDedupFirst : List String → List String
  | [] => []
  | a :: rest => a :: specDedupFirst (rest.filter (fun b => b ≠ a))
termination_by l => l.length
decreasing_by
  simp only [List.length_cons]
  exact Nat.lt_succ_of_le (List.length_filter_le _ _)

/-! ## Date deserialization (`src/helpers.rs`, module `serde_date`) -/

namespace serde_date

/-- Embedding of `time::Date` (payload irrelevant; only parse success or
failure matters to `visit_str`). -/
structure Date where
  year : Int
  month : Nat
  day : Nat
deriving DecidableEq, Repr

/-- Outcome of a serde visitor call: a value, a recoverable deserialization
error (`E : de::Error`), or an unrecoverable process abort. -/
inductive DeserOutcome (α : Type) where
  | ok : α → DeserOutcome α
  | err : String → DeserOutcome α
  | panicked : String → DeserOutcome α
deriving DecidableEq, Repr

/-- Method `DateVisitor::visit_str` from `src/helpers.rs` (lines 126-134):
`Date::parse` (external, modelled by `parseDate`) is consulted, and on
failure the code runs `unwrap_or_else(|_| panic!("The date value {} is
invalid", &v))`, an unrecoverable abort — it never constructs a serde error. -/
def DateVisitor.visit_str (parseDate : String → Option Date) (v : String) :
    DeserOutcome Date :=
  match parseDate v with
  | some d => DeserOutcome.ok d
  | none => DeserOutcome.panicked ("The date value " ++ v ++ " is invalid")

end serde_date

/-! ## Concrete instances used by witnesses -/

/-- A concrete event source agreeing with pulldown-cmark on the handful of
inputs the witnesses use; any other input is parsed as one paragraph of
literal text. -/
def cmParse : String → List Event := fun s =>
  if s = "# Header" then
    [Event.Start (Tag.Heading 1), Event.Text "Header", Event.End (Tag.Heading 1)]
  else if s = "**Hello**" then
    [Event.Start Tag.Paragraph, Event.Start Tag.Strong, Event.Text "Hello",
      Event.End Tag.Strong, Event.End Tag.Paragraph]
  else if s = "> a\n> b" then
    [Event.Start Tag.BlockQuote, Event.Start Tag.Paragraph, Event.Text "a",
      Event.SoftBreak, Event.Text "b", Event.End Tag.Paragraph, Event.End Tag.BlockQuote]
  else
    [Event.Start Tag.Paragraph, Event.Text s, Event.End Tag.Paragraph]

/-- Proof-side view of `AuthorNameVisitor.seqLoop`: the names the loop adds
beyond the accumulator it starts from. -/
def newElems (seen : List String) : List String → List String
  | [] => []
  | a :: rest =>
      if a ∈ seen then newElems seen rest
      else a :: newElems (seen ++ [a]) rest

/-! ## Lemmas -/

theorem find_map_cons_some {α β : Type} {f : α → Option β} {a : α} {b : β}
    {rest : List α} (h : f a = some b) : find_map f (a :: rest) = some b := by
  unfold find_map
  rw [h]

theorem find_map_cons_none {α β : Type} {f : α → Option β} {a : α}
    {rest : List α} (h : f a = none) : find_map f (a :: rest) = find_map f rest := by
  conv_lhs => rw [find_map, h]

theorem find_map_some {α β : Type} {f : α → Option β} {b : β} :
    ∀ {l : List α}, find_map f l = some b → ∃ a ∈ l, f a = some b := by
  intro l
  induction l with
  | nil => intro h; simp [find_map] at h
  | cons a rest ih =>
      intro h
      unfold find_map at h
      cases hf : f a with
      | some b2 =>
          rw [hf] at h
          exact ⟨a, List.mem_cons_self a rest, hf.trans h⟩
      | none =>
          rw [hf] at h
          obtain ⟨x, hx, hfx⟩ := ih h
          exact ⟨x, List.mem_cons_of_mem a hx, hfx⟩

theorem sanitize_data (raw : String) :
    (sanitize raw).data =
      (raw.data.take 200).map (fun c => if c = Char.ofNat 34 then Char.ofNat 39 else c) :=
  rfl

theorem sanitize_length (raw : String) : (sanitize raw).length ≤ 200 := by
  show (sanitize raw).data.length ≤ 200
  rw [sanitize_data, List.length_map, List.length_take]
  exact Nat.min_le_left _ _

theorem sanitize_no_double_quote (raw : String) :
    ∀ c ∈ (sanitize raw).data, c ≠ Char.ofNat 34 := by
  intro c hc
  rw [sanitize_data, List.mem_map] at hc
  obtain ⟨a, _, ha⟩ := hc
  by_cases h : a = Char.ofNat 34
  · rw [← ha]
    simp only [h, if_pos rfl]
    decide
  · rw [← ha]
    simp only [if_neg h]
    exact h

theorem descriptionOfLine_eq (parse : String → List Event) (line : String) :
    descriptionOfLine parse line =
      if rustTrim line = "" || startsWithHashOrBang (rustTrim line) then none
      else if strip_markdown parse (rustTrim line) = String.mk [Char.ofNat 10]
          || strip_markdown parse (rustTrim line) = "" then none
      else some (sanitize (strip_markdown parse (rustTrim line))) :=
  rfl

theorem descriptionOfLine_some {parse : String → List Event} {line : String}
    {d : String} (h : descriptionOfLine parse line = some d) :
    d = sanitize (strip_markdown parse (rustTrim line)) := by
  rw [descriptionOfLine_eq] at h
  by_cases h1 : (rustTrim line = "" || startsWithHashOrBang (rustTrim line) : Bool)
  · rw [if_pos h1] at h
    exact absurd h (by simp)
  · rw [if_neg h1] at h
    by_cases h2 : (strip_markdown parse (rustTrim line) = String.mk [Char.ofNat 10]
        || strip_markdown parse (rustTrim line) = "" : Bool)
    · rw [if_pos h2] at h
      exact absurd h (by simp)
    · rw [if_neg h2] at h
      exact (Option.some.injEq _ _ ▸ h).symm

/-! ## Claim theorems -/

/-- C1: for every UTF-8 input string (and every event source `parse`), the
string returned by `extract_description` contains at most 200 Unicode scalar
values and contains no double-quote character (code point 34). -/
theorem extract_description_bounded_and_quote_free
    (parse : String → List Event) (markdown : String) :
    (extract_description parse markdown).length ≤ 200 ∧
    ∀ c ∈ (extract_description parse markdown).data, c ≠ Char.ofNat 34 := by
  unfold extract_description
  cases hf : find_map (descriptionOfLine parse) (rustLines markdown) with
  | none =>
      constructor
      · simp [Option.getD]
      · intro c hc
        simp [Option.getD] at hc
  | some d =>
      obtain ⟨a, _, ha⟩ := find_map_some hf
      have hd : d = sanitize (strip_markdown parse (rustTrim a)) :=
        descriptionOfLine_some ha
      constructor
      · simpa [Option.getD, hd] using sanitize_length _
      · intro c hc
        simp only [Option.getD] at hc
        rw [hd] at hc
        exact sanitize_no_double_quote _ c hc

/-- Witness for C1 at a concrete input. -/
theorem extract_description_bounded_and_quote_free_witness :
    (extract_description cmParse "a \"aa\" a").length ≤ 200 ∧
    ∀ c ∈ (extract_description cmParse "a \"aa\" a").data, c ≠ Char.ofNat 34 :=
  extract_description_bounded_and_quote_free cmParse "a \"aa\" a"

/-- C6: `extract_description` returns the sanitized strip of only the first
qualifying line and stops scanning immediately; with the event source
behaving as pulldown-cmark does on the single line (stripping it to
itself), the two-line input yields the first line only, not their
concatenation. -/
theorem extract_description_first_line_only (parse : String → List Event)
    (h : strip_markdown parse "aaaaaaaaaa" = "aaaaaaaaaa") :
    extract_description parse "aaaaaaaaaa\naaaaaaaaaa" = "aaaaaaaaaa" := by
  have ht : rustTrim "aaaaaaaaaa" = "aaaaaaaaaa" := by decide
  have hd : descriptionOfLine parse "aaaaaaaaaa" = some "aaaaaaaaaa" := by
    rw [descriptionOfLine_eq, ht, h]
    decide
  have hl : rustLines "aaaaaaaaaa\naaaaaaaaaa" = ["aaaaaaaaaa", "aaaaaaaaaa"] := by
    decide
  unfold extract_description
  rw [hl, find_map_cons_some hd]
  rfl

/-- Witness for C6 at the concrete event source `cmParse`. -/
theorem extract_description_first_line_only_witness :
    extract_description cmParse "aaaaaaaaaa\naaaaaaaaaa" = "aaaaaaaaaa" :=
  extract_description_first_line_only cmParse (by decide)

/-- C7: `extract_description` replaces every double-quote character in the
selected candidate with a single-quote character: on the input
`a "aa" a` (with the event source stripping the line to itself, as
pulldown-cmark does) the result is the same text with each double quote
(code point 34) replaced by a single quote (code point 39). -/
theorem extract_description_replaces_double_quotes (parse : String → List Event)
    (h : strip_markdown parse "a \"aa\" a" = "a \"aa\" a") :
    extract_description parse "a \"aa\" a" =
      String.mk ([97, 32, 39, 97, 97, 39, 32, 97].map Char.ofNat) := by
  have ht : rustTrim "a \"aa\" a" = "a \"aa\" a" := by decide
  have hd : descriptionOfLine parse "a \"aa\" a" =
      some (String.mk ([97, 32, 39, 97, 97, 39, 32, 97].map Char.ofNat)) := by
    rw [descriptionOfLine_eq, ht, h]
    decide
  have hl : rustLines "a \"aa\" a" = ["a \"aa\" a"] := by decide
  unfold extract_description
  rw [hl, find_map_cons_some hd]
  rfl

/-- Witness for C7 at the concrete event source `cmParse`. -/
theorem extract_description_replaces_double_quotes_witness :
    extract_description cmParse "a \"aa\" a" =
      String.mk ([97, 32, 39, 97, 97, 39, 32, 97].map Char.ofNat) :=
  extract_description_replaces_double_quotes cmParse (by decide)

/-- C8: `strip_markdown` appends exactly one line break at each recognized
block boundary and otherwise appends text verbatim: with the event source
producing the pulldown-cmark events for the three inputs, stripping
`# Header` gives `Header` plus one line break, stripping `**Hello**` gives
`Hello` with no break, and stripping a two-line blockquote gives the two
lines joined by a single line break with one trailing line break. -/
theorem strip_markdown_fresh_line_behavior (parse : String → List Event)
    (h1 : parse "# Header" =
      [Event.Start (Tag.Heading 1), Event.Text "Header", Event.End (Tag.Heading 1)])
    (h2 : parse "**Hello**" =
      [Event.Start Tag.Paragraph, Event.Start Tag.Strong, Event.Text "Hello",
        Event.End Tag.Strong, Event.End Tag.Paragraph])
    (h3 : parse "> a\n> b" =
      [Event.Start Tag.BlockQuote, Event.Start Tag.Paragraph, Event.Text "a",
        Event.SoftBreak, Event.Text "b", Event.End Tag.Paragraph,
        Event.End Tag.BlockQuote]) :
    strip_markdown parse "# Header" = "Header\n" ∧
    strip_markdown parse "**Hello**" = "Hello" ∧
    strip_markdown parse "> a\n> b" = "a\nb\n" := by
  refine ⟨?_, ?_, ?_⟩
  · unfold strip_markdown
    rw [h1]
    decide
  · unfold strip_markdown
    rw [h2]
    decide
  · unfold strip_markdown
    rw [h3]
    decide

/-- Witness for C8 at the concrete event source `cmParse`. -/
theorem strip_markdown_fresh_line_behavior_witness :
    strip_markdown cmParse "# Header" = "Header\n" ∧
    strip_markdown cmParse "**Hello**" = "Hello" ∧
    strip_markdown cmParse "> a\n> b" = "a\nb\n" :=
  strip_markdown_fresh_line_behavior cmParse (by decide) (by decide) (by decide)

theorem dispatchEvent_fst_noop {σ : Type} (v : MarkdownVisitor σ) (s : σ) (e : Event)
    (hst : ∀ s t, (v.visit_start_tag s t).1 = Visiting.notChanged)
    (hen : ∀ s t, (v.visit_end_tag s t).1 = Visiting.notChanged)
    (htx : ∀ s t, (v.visit_text s t).1 = Visiting.notChanged)
    (hcd : ∀ s t, (v.visit_code s t).1 = Visiting.notChanged) :
    (dispatchEvent v s e).1 = some e := by
  cases e <;> simp [dispatchEvent, hst, hen, htx, hcd, Visiting.resolve]

theorem processEvents_noop {σ : Type} (v : MarkdownVisitor σ)
    (hst : ∀ s t, (v.visit_start_tag s t).1 = Visiting.notChanged)
    (hen : ∀ s t, (v.visit_end_tag s t).1 = Visiting.notChanged)
    (htx : ∀ s t, (v.visit_text s t).1 = Visiting.notChanged)
    (hcd : ∀ s t, (v.visit_code s t).1 = Visiting.notChanged) :
    ∀ (l : List Event) (s : σ), processEvents v s l = l := by
  intro l
  induction l with
  | nil => intro s; rfl
  | cons e rest ih =>
      intro s
      have h1 : (dispatchEvent v s e).1 = some e :=
        dispatchEvent_fst_noop v s e hst hen htx hcd
      cases hd : dispatchEvent v s e with
      | mk o s2 =>
          rw [hd] at h1
          simp only at h1
          subst h1
          simp [processEvents, hd, ih s2]

/-- C2: rendering with a visitor whose every operation returns `NotChanged`
(in particular the all-defaults visitor) produces output identical to the
baseline rendering of the same input with no interception, for every input,
event source and serializer. -/
theorem noop_visitor_matches_baseline {σ : Type}
    (parse : String → List Event) (push_html : List Event → String)
    (v : MarkdownVisitor σ) (s : σ) (markdown : String)
    (hst : ∀ s t, (v.visit_start_tag s t).1 = Visiting.notChanged)
    (hen : ∀ s t, (v.visit_end_tag s t).1 = Visiting.notChanged)
    (htx : ∀ s t, (v.visit_text s t).1 = Visiting.notChanged)
    (hcd : ∀ s t, (v.visit_code s t).1 = Visiting.notChanged) :
    markdown_to_html parse push_html v s markdown =
      baseline_html parse push_html markdown := by
  unfold markdown_to_html baseline_html
  rw [processEvents_noop v hst hen htx hcd]

/-- Witness for C2: the all-defaults visitor on a concrete input. -/
theorem noop_visitor_matches_baseline_witness :
    markdown_to_html cmParse (fun l => toString l.length)
        defaultVisitor () "**Hello**" =
      baseline_html cmParse (fun l => toString l.length)
        "**Hello**" :=
  noop_visitor_matches_baseline cmParse _ defaultVisitor () "**Hello**"
    (fun _ _ => rfl) (fun _ _ => rfl) (fun _ _ => rfl) (fun _ _ => rfl)

theorem processEvents_length_le {σ : Type} (v : MarkdownVisitor σ) :
    ∀ (l : List Event) (s : σ), (processEvents v s l).length ≤ l.length := by
  intro l
  induction l with
  | nil => intro s; simp [processEvents]
  | cons e rest ih =>
      intro s
      cases hd : dispatchEvent v s e with
      | mk o s2 =>
          cases o with
          | some e2 =>
              simp only [processEvents, hd, List.length_cons]
              exact Nat.succ_le_succ (ih s2)
          | none =>
              simp only [processEvents, hd, List.length_cons]
              exact Nat.le_succ_of_le (ih s2)

theorem processTrace_map_snd {σ : Type} (v : MarkdownVisitor σ) :
    ∀ (l : List Event) (s : σ) (i : Nat),
      (processTrace v s i l).map Prod.snd = processEvents v s l := by
  intro l
  induction l with
  | nil => intro s i; rfl
  | cons e rest ih =>
      intro s i
      cases hd : dispatchEvent v s e with
      | mk o s2 =>
          cases o with
          | some e2 => simp [processTrace, processEvents, hd, ih s2 (i + 1)]
          | none => simp [processTrace, processEvents, hd, ih s2 (i + 1)]

theorem processTrace_fst_bounds {σ : Type} (v : MarkdownVisitor σ) :
    ∀ (l : List Event) (s : σ) (i : Nat) (p : Nat × Event),
      p ∈ processTrace v s i l → i ≤ p.1 ∧ p.1 < i + l.length := by
  intro l
  induction l with
  | nil => intro s i p hp; simp [processTrace] at hp
  | cons e rest ih =>
      intro s i p hp
      cases hd : dispatchEvent v s e with
      | mk o s2 =>
          cases o with
          | some e2 =>
              rw [processTrace, hd] at hp
              rcases List.mem_cons.1 hp with h | h
              · subst h
                simp only [List.length_cons]
                omega
              · have := ih s2 (i + 1) p h
                simp only [List.length_cons]
                omega
          | none =>
              rw [processTrace, hd] at hp
              have := ih s2 (i + 1) p hp
              simp only [List.length_cons]
              omega

theorem processTrace_chain {σ : Type} (v : MarkdownVisitor σ) :
    ∀ (l : List Event) (s : σ) (i : Nat),
      List.Chain' (fun p q => p.1 < q.1) (processTrace v s i l) := by
  intro l
  induction l with
  | nil => intro s i; simp [processTrace]
  | cons e rest ih =>
      intro s i
      cases hd : dispatchEvent v s e with
      | mk o s2 =>
          cases o with
          | some e2 =>
              rw [processTrace, hd]
              refine List.chain'_cons'.2 ⟨?_, ih s2 (i + 1)⟩
              intro q hq
              have hmem : q ∈ processTrace v s2 (i + 1) rest :=
                List.mem_of_mem_head? hq
              have := processTrace_fst_bounds v rest s2 (i + 1) q hmem
              omega
          | none =>
              rw [processTrace, hd]
              exact ih s2 (i + 1)

/-- C3: for every input event sequence and every visitor, the sequence of
events forwarded to the HTML serializer is no longer than the parsed
sequence, and the indices of the originating parsed events along the
forwarded sequence are strictly increasing (no reordering) and in range. -/
theorem forwarded_events_order_preserving {σ : Type} (v : MarkdownVisitor σ)
    (s : σ) (events : List Event) :
    (processEvents v s events).length ≤ events.length ∧
    (processTrace v s 0 events).map Prod.snd = processEvents v s events ∧
    List.Chain' (fun p q => p.1 < q.1) (processTrace v s 0 events) ∧
    ∀ p ∈ processTrace v s 0 events, p.1 < events.length := by
  refine ⟨processEvents_length_le v events s, processTrace_map_snd v events s 0,
    processTrace_chain v events s 0, ?_⟩
  intro p hp
  have := processTrace_fst_bounds v events s 0 p hp
  omega

/-- Witness for C3 at a concrete visitor and event list. -/
theorem forwarded_events_order_preserving_witness :
    (processEvents defaultVisitor () [Event.SoftBreak, Event.Rule]).length ≤
      [Event.SoftBreak, Event.Rule].length ∧
    (processTrace defaultVisitor () 0 [Event.SoftBreak, Event.Rule]).map Prod.snd =
      processEvents defaultVisitor () [Event.SoftBreak, Event.Rule] ∧
    List.Chain' (fun p q => p.1 < q.1)
      (processTrace defaultVisitor () 0 [Event.SoftBreak, Event.Rule]) ∧
    ∀ p ∈ processTrace defaultVisitor () 0 [Event.SoftBreak, Event.Rule],
      p.1 < [Event.SoftBreak, Event.Rule].length :=
  forwarded_events_order_preserving defaultVisitor () [Event.SoftBreak, Event.Rule]

theorem dispatchEvent_not_interceptable {σ : Type} (v : MarkdownVisitor σ)
    (s : σ) (e : Event) (h : interceptable e = false) :
    dispatchEvent v s e = (some e, s) := by
  cases e <;> simp_all [interceptable, dispatchEvent]

theorem processTrace_mem_of_not_interceptable {σ : Type} (v : MarkdownVisitor σ) :
    ∀ (l : List Event) (s : σ) (i k : Nat) (hk : k < l.length),
      interceptable (l.get ⟨k, hk⟩) = false →
      (i + k, l.get ⟨k, hk⟩) ∈ processTrace v s i l := by
  intro l
  induction l with
  | nil => intro s i k hk; exact absurd hk (by simp)
  | cons e rest ih =>
      intro s i k hk hni
      cases k with
      | zero =>
          have he : dispatchEvent v s e = (some e, s) :=
            dispatchEvent_not_interceptable v s e hni
          rw [processTrace, he]
          exact List.mem_cons_self _ _
      | succ k2 =>
          have hk2 : k2 < rest.length := Nat.lt_of_succ_lt_succ hk
          have hmem := ih s (i + 1) k2 hk2 hni
          have harith : i + (k2 + 1) = (i + 1) + k2 := by omega
          cases hd : dispatchEvent v s e with
          | mk o s2 =>
              cases o with
              | some e2 =>
                  rw [processTrace, hd]
                  refine List.mem_cons_of_mem _ ?_
                  rw [harith]
                  exact ih s2 (i + 1) k2 hk2 hni
              | none =>
                  rw [processTrace, hd, harith]
                  exact ih s2 (i + 1) k2 hk2 hni

/-- C4: only start-tag, end-tag, text and code events are dispatched to the
visitor (each resolved through the visitor's outcome), while every
soft-break, hard-break, rule and other raw-construct event is forwarded to
the serializer unchanged, with the visitor state untouched; in the event
stream, every non-interceptable parsed event appears in the forwarded trace
at its own index. -/
theorem only_content_events_intercepted {σ : Type} (v : MarkdownVisitor σ) (s : σ) :
    (∀ e, interceptable e = false → dispatchEvent v s e = (some e, s)) ∧
    (∀ tag, dispatchEvent v s (Event.Start tag) =
      ((v.visit_start_tag s tag).1.resolve (Event.Start tag),
        (v.visit_start_tag s tag).2)) ∧
    (∀ tag, dispatchEvent v s (Event.End tag) =
      ((v.visit_end_tag s tag).1.resolve (Event.End tag),
        (v.visit_end_tag s tag).2)) ∧
    (∀ t, dispatchEvent v s (Event.Text t) =
      ((v.visit_text s t).1.resolve (Event.Text t), (v.visit_text s t).2)) ∧
    (∀ c, dispatchEvent v s (Event.Code c) =
      ((v.visit_code s c).1.resolve (Event.Code c), (v.visit_code s c).2)) ∧
    (∀ (events : List Event) (k : Nat) (hk : k < events.length),
      interceptable (events.get ⟨k, hk⟩) = false →
      (k, events.get ⟨k, hk⟩) ∈ processTrace v s 0 events) := by
  refine ⟨fun e he => dispatchEvent_not_interceptable v s e he,
    fun tag => rfl, fun tag => rfl, fun t => rfl, fun c => rfl, ?_⟩
  intro events k hk hni
  have := processTrace_mem_of_not_interceptable v events s 0 k hk hni
  simpa using this

/-- Witness for C4 at a concrete visitor and event list. -/
theorem only_content_events_intercepted_witness :
    dispatchEvent defaultVisitor () Event.SoftBreak = (some Event.SoftBreak, ()) ∧
    (0, Event.SoftBreak) ∈ processTrace defaultVisitor () 0 [Event.SoftBreak] :=
  ⟨(only_content_events_intercepted defaultVisitor ()).1 Event.SoftBreak (by decide),
    (only_content_events_intercepted defaultVisitor ()).2.2.2.2.2
      [Event.SoftBreak] 0 (by decide) (by decide)⟩

theorem seqLoop_eq_append_newElems :
    ∀ (l acc : List String), AuthorNameVisitor.seqLoop acc l = acc ++ newElems acc l := by
  intro l
  induction l with
  | nil => intro acc; simp [AuthorNameVisitor.seqLoop, newElems]
  | cons a rest ih =>
      intro acc
      by_cases h : a ∈ acc
      · simp only [AuthorNameVisitor.seqLoop, newElems, if_pos h]
        exact ih acc
      · simp only [AuthorNameVisitor.seqLoop, newElems, if_neg h]
        rw [ih (acc ++ [a]), List.append_assoc]
        rfl

theorem newElems_congr :
    ∀ (l s1 s2 : List String), (∀ x, x ∈ s1 ↔ x ∈ s2) →
      newElems s1 l = newElems s2 l := by
  intro l
  induction l with
  | nil => intro s1 s2 _; rfl
  | cons a rest ih =>
      intro s1 s2 h
      by_cases hc : a ∈ s1
      · simp only [newElems, if_pos hc, if_pos ((h a).1 hc)]
        exact ih s1 s2 h
      · simp only [newElems, if_neg hc, if_neg (fun hx => hc ((h a).2 hx))]
        refine congrArg (a :: ·) (ih (s1 ++ [a]) (s2 ++ [a]) ?_)
        intro x
        simp [List.mem_append, h x]

theorem newElems_snoc :
    ∀ (l seen : List String) (a : String),
      newElems (seen ++ [a]) l = newElems seen (l.filter (fun b => b ≠ a)) := by
  intro l
  induction l with
  | nil => intro seen a; rfl
  | cons b rest ih =>
      intro seen a
      by_cases hba : b = a
      · subst hba
        have hmem : b ∈ seen ++ [b] := by simp
        simp only [newElems, if_pos hmem, List.filter_cons]
        simpa using ih seen b
      · have hfil : (b :: rest).filter (fun c => (c ≠ a : Bool)) =
            b :: rest.filter (fun c => (c ≠ a : Bool)) := by
          simp [List.filter_cons, hba]
        by_cases hbs : b ∈ seen
        · have hmem : b ∈ seen ++ [a] := by simp [hbs]
          simp only [newElems, if_pos hmem]
          rw [hfil]
          simp only [newElems, if_pos hbs]
          exact ih seen a
        · have hmem : b ∉ seen ++ [a] := by simp [hbs, hba]
          simp only [newElems, if_neg hmem]
          rw [hfil]
          simp only [newElems, if_neg hbs]
          refine congrArg (b :: ·) ?_
          have h1 : newElems ((seen ++ [a]) ++ [b]) rest =
              newElems ((seen ++ [b]) ++ [a]) rest := by
            refine newElems_congr rest _ _ ?_
            intro x
            simp only [List.mem_append]
            tauto
          rw [h1, ih (seen ++ [b]) a]

theorem newElems_nil_spec :
    ∀ (n : Nat) (l : List String), l.length ≤ n → newElems [] l = specDedupFirst l := by
  intro n
  induction n with
  | zero =>
      intro l hl
      rw [Nat.le_zero, List.length_eq_zero] at hl
      subst hl
      simp [newElems, specDedupFirst]
  | succ n ih =>
      intro l hl
      cases l with
      | nil => simp [newElems, specDedupFirst]
      | cons a rest =>
          have hmem : a ∉ ([] : List String) := List.not_mem_nil a
          simp only [newElems, if_neg hmem]
          have h1 : newElems ([] ++ [a]) rest =
              newElems [] (rest.filter (fun b => b ≠ a)) := newElems_snoc rest [] a
          rw [h1, ih _ (by
            have := List.length_filter_le (fun b => decide (b ≠ a)) rest
            simp only [List.length_cons] at hl
            omega)]
          conv_rhs => rw [specDedupFirst]

theorem specDedupFirst_sublist :
    ∀ (n : Nat) (l : List String), l.length ≤ n → List.Sublist (specDedupFirst l) l := by
  intro n
  induction n with
  | zero =>
      intro l hl
      rw [Nat.le_zero, List.length_eq_zero] at hl
      subst hl
      simp [specDedupFirst]
  | succ n ih =>
      intro l hl
      cases l with
      | nil => simp [specDedupFirst]
      | cons a rest =>
          simp only [specDedupFirst]
          refine List.Sublist.cons₂ a ?_
          refine List.Sublist.trans (ih _ ?_) (List.filter_sublist rest)
          have := List.length_filter_le (fun b => decide (b ≠ a)) rest
          simp only [List.length_cons] at hl
          omega

theorem specDedupFirst_nodup :
    ∀ (n : Nat) (l : List String), l.length ≤ n → (specDedupFirst l).Nodup := by
  intro n
  induction n with
  | zero =>
      intro l hl
      rw [Nat.le_zero, List.length_eq_zero] at hl
      subst hl
      simp [specDedupFirst]
  | succ n ih =>
      intro l hl
      cases l with
      | nil => simp [specDedupFirst]
      | cons a rest =>
          have hlen : (rest.filter (fun b => b ≠ a)).length ≤ n := by
            have := List.length_filter_le (fun b => decide (b ≠ a)) rest
            simp only [List.length_cons] at hl
            omega
          simp only [specDedupFirst, List.nodup_cons]
          constructor
          · intro hmem
            have hsub := (specDedupFirst_sublist n _ hlen).subset hmem
            rw [List.mem_filter] at hsub
            simp at hsub
          · exact ih _ hlen

/-- C10: deserializing an `AuthorId` from a sequence of names removes
duplicate names by exact string equality, keeping only the first occurrence
of each name in order (the result is duplicate-free and a subsequence of the
input), and deserializing from a plain string always yields the
single-author variant holding that exact string. -/
theorem author_id_deserialization_dedup (v : String) (names : List String) :
    AuthorNameVisitor.visit_str v = AuthorId.One v ∧
    AuthorNameVisitor.visit_seq names = AuthorId.List (specDedupFirst names) ∧
    (specDedupFirst names).Nodup ∧
    List.Sublist (specDedupFirst names) names := by
  refine ⟨rfl, ?_, specDedupFirst_nodup names.length names (Nat.le_refl _),
    specDedupFirst_sublist names.length names (Nat.le_refl _)⟩
  unfold AuthorNameVisitor.visit_seq
  rw [seqLoop_eq_append_newElems, List.nil_append,
    newElems_nil_spec names.length names (Nat.le_refl _)]

/-- C5 (code bug): `DateVisitor::visit_str` does not return a recoverable
error when the date string fails to parse — it aborts the process via
`panic!`; evaluated at a failing parse it yields the panic outcome with the
exact message built by the source. -/
theorem date_parse_failure_panics :
    serde_date.DateVisitor.visit_str (fun _ => none) "2022-13-01" =
      serde_date.DeserOutcome.panicked "The date value 2022-13-01 is invalid" :=
  rfl

/-- C9: the three core operations are total over every input: for every
visitor, visitor state, event source, serializer and UTF-8 input string,
each of `markdown_to_html`, `strip_markdown` and `extract_description`
returns a well-defined output string; no error or panic outcome exists
anywhere in their embedding. -/
theorem core_functions_total {σ : Type} (v : MarkdownVisitor σ) (s : σ)
    (parse : String → List Event) (push_html : List Event → String)
    (markdown : String) :
    (∃ h, markdown_to_html parse push_html v s markdown = h) ∧
    (∃ t, strip_markdown parse markdown = t) ∧
    (∃ d, extract_description parse markdown = d) :=
  ⟨⟨_, rfl⟩, ⟨_, rfl⟩, ⟨_, rfl⟩⟩

end Zine
